import Mathlib

/-!
Verification development for the math-expression extraction server
(`src/server.mjs`).  JavaScript strings are modelled as `List Char`.
The three core operations of the source are embedded:

* `extractMathExpressions` — six regex scan passes over the input
  (`server.mjs` lines 42–61);
* `cleanLatexSyntax` — the four-step cleanup pipeline
  (`server.mjs` lines 63–69), called `cleanExpression` in the spec;
* `renderOutput` — the content computation of
  `FileHandler.writeOutputFile` (`server.mjs` lines 98–103).

Each JavaScript regex used by the source has a fixed simple shape
(literal delimiters around a lazy dot-star, or a literal/char-class
rewrite), so each is embedded as a dedicated scanner that mirrors the
ECMAScript matching semantics of that concrete pattern: leftmost match,
lazy (shortest-first) extension of `.*?`, `.` excluding line
terminators unless the `s` flag is set, and `g`-mode resumption after
the end of each match.
-/

/-- ECMAScript line terminators: the characters the `.` atom does not
match without the `s` flag, and after which a multiline `^` matches. -/
def isLineTermJS (c : Char) : Bool :=
  c = '\n' || c = '\r' || c = '\u2028' || c = '\u2029'

/-- ECMAScript `\s` (WhiteSpace ∪ LineTerminator), also the character
set removed by `String.prototype.trim`. -/
def isSpaceJS (c : Char) : Bool :=
  c = ' ' || c = '\t' || c = '\n' || c = '\r' ||
  c = '\x0b' || c = '\x0c' || c = '\u00a0' || c = '\u1680' ||
  ('\u2000' ≤ c && c ≤ '\u200a') || c = '\u2028' || c = '\u2029' ||
  c = '\u202f' || c = '\u205f' || c = '\u3000' || c = '\ufeff'

/-- Matching of `.*?close` at the current position: the lazy star tries
the shortest content first, each extension requiring the dot to match
(line terminators refused unless `dotall`).  Returns the content and
the remainder after the closing delimiter. -/
def findClose (close : List Char) (dotall : Bool) :
    List Char → Option (List Char × List Char)
  | [] => none
  | c :: cs =>
    if close.isPrefixOf (c :: cs) then some ([], (c :: cs).drop close.length)
    else if dotall || !isLineTermJS c then
      (findClose close dotall cs).map (fun p => (c :: p.1, p.2))
    else none

/-- All matches of the pattern `opn.*?close` in `g` mode, as
(full match, captured content) pairs, scanning left to right and
resuming after each match, as `String.prototype.matchAll` does.
The first argument counts characters still to skip before the scan
resumes (used to re-enter the list after a match, keeping the
recursion structural); the delimiters of every pattern in the source
are nonempty, which the skip arithmetic relies on. -/
def matchAllAux (opn close : List Char) (dotall : Bool) :
    Nat → List Char → List (List Char × List Char)
  | n + 1, _ :: cs => matchAllAux opn close dotall n cs
  | _, [] => []
  | 0, c :: cs =>
    if opn.isPrefixOf (c :: cs) then
      match findClose close dotall ((c :: cs).drop opn.length) with
      | some (content, rest) =>
          (opn ++ content ++ close, content) ::
            matchAllAux opn close dotall (cs.length - rest.length) cs
      | none => matchAllAux opn close dotall 0 cs
    else matchAllAux opn close dotall 0 cs

/-- `latexContent.matchAll(pattern)` for a pattern `opn.*?close`. -/
def matchAll (opn close : List Char) (dotall : Bool) (l : List Char) :
    List (List Char × List Char) :=
  matchAllAux opn close dotall 0 l

/-- One delimiter convention of `extractMathExpressions`: opening and
closing literals, the `s` (dotall) flag, and whether the pattern has an
inner capture group. -/
structure MathPattern where
  opn : List Char
  close : List Char
  dotall : Bool
  hasGroup : Bool
deriving DecidableEq

/-- `/\\\(.*?\\\)/g` — no capture group, no `s` flag. -/
def patParen : MathPattern := ⟨['\\', '('], ['\\', ')'], false, false⟩

/-- `/\\\[(.*?)\\\]/gs` -/
def patBracket : MathPattern := ⟨['\\', '['], ['\\', ']'], true, true⟩

/-- `/\$(.*?)\$/g` — no `s` flag. -/
def patDollar : MathPattern := ⟨['$'], ['$'], false, true⟩

/-- `/\\begin{equation}(.*?)\\end{equation}/gs` -/
def patEquation : MathPattern :=
  ⟨"\\begin\x7bequation\x7d".data, "\\end\x7bequation\x7d".data, true, true⟩

/-- `/\\begin{align}(.*?)\\end{align}/gs` -/
def patAlign : MathPattern :=
  ⟨"\\begin\x7balign\x7d".data, "\\end\x7balign\x7d".data, true, true⟩

/-- `/\\begin{multline}(.*?)\\end{multline}/gs` -/
def patMultline : MathPattern :=
  ⟨"\\begin\x7bmultline\x7d".data, "\\end\x7bmultline\x7d".data, true, true⟩

/-- The `patterns` array of `extractMathExpressions`, in source order. -/
def mathPatterns : List MathPattern :=
  [patParen, patBracket, patDollar, patEquation, patAlign, patMultline]

/-- The `matches.forEach` body: push `match[1]` when it is truthy
(the capture group exists and captured a nonempty string), otherwise
push `match[0]` when truthy. -/
def pushMatches (hasGroup : Bool) : List (List Char × List Char) → List (List Char)
  | [] => []
  | m :: ms =>
    if hasGroup && !m.2.isEmpty then m.2 :: pushMatches hasGroup ms
    else if !m.1.isEmpty then m.1 :: pushMatches hasGroup ms
    else pushMatches hasGroup ms

/-- One scan pass of `extractMathExpressions`: run `matchAll` for the
pattern and push each match's selected text. -/
def runPattern (p : MathPattern) (s : List Char) : List (List Char) :=
  pushMatches p.hasGroup (matchAll p.opn p.close p.dotall s)

/-- `extractMathExpressions` (`server.mjs` lines 42–61): the six passes
run in order, each appending its results. -/
def extractMathExpressions (s : List Char) : List (List Char) :=
  mathPatterns.foldl (fun acc p => acc ++ runPattern p s) []

/-- Whether the pattern `opn.*?close` matches anywhere in the text
(at any starting position). -/
def hasMatch (opn close : List Char) (dotall : Bool) : List Char → Bool
  | [] => false
  | c :: cs =>
    (opn.isPrefixOf (c :: cs) &&
      (findClose close dotall ((c :: cs).drop opn.length)).isSome) ||
    hasMatch opn close dotall cs

/-- Whether one of the six delimiter conventions matches anywhere. -/
def hasPatternMatch (p : MathPattern) (s : List Char) : Bool :=
  hasMatch p.opn p.close p.dotall s

-- sanity examples on the spec's own test inputs
example :
    extractMathExpressions "\\(a+b\\)".data = ["\\(a+b\\)".data] := by decide

example :
    extractMathExpressions "\\[a+b\\]".data = ["a+b".data] := by decide

example :
    extractMathExpressions "$x$ and $y$".data = ["x".data, "y".data] := by
  decide

/-!  The cleanup pipeline `cleanLatexSyntax` (`server.mjs` lines 63–69):
four chained `replace`/`trim` steps.  -/

/-- `.replace(/%.*$/gm, "")`: on every line, delete from the first `%`
to the end of the line (`.` stops before a line terminator, where the
multiline `$` then matches).  The flag records whether the scan is
currently inside a comment on the present line. -/
def stripCommentsAux : Bool → List Char → List Char
  | _, [] => []
  | inComment, c :: cs =>
    if isLineTermJS c then c :: stripCommentsAux false cs
    else if inComment then stripCommentsAux true cs
    else if c = '%' then stripCommentsAux true cs
    else c :: stripCommentsAux false cs

/-- First step of `cleanLatexSyntax`. -/
def stripComments (l : List Char) : List Char := stripCommentsAux false l

/-- The alternation of the command-removal regex, in source order. -/
def cmdNames : List (List Char) :=
  [['l', 'a', 'b', 'e', 'l'],
   ['n', 'o', 'n', 'u', 'm', 'b', 'e', 'r'],
   ['t', 'a', 'g'],
   ['q', 'q', 'u', 'a', 'd'],
   ['q', 'u', 'a', 'd'],
   ['v', 's', 'p', 'a', 'c', 'e'],
   ['h', 's', 'p', 'a', 'c', 'e']]

/-- `{[^}]*}` after a command name: consume up to the first `}`
(the negated class crosses line boundaries); fail when no `}` follows.
The input starts after the opening brace. -/
def tryBraceArg : List Char → Option (List Char)
  | [] => none
  | c :: cs => if c = '\x7d' then some cs else tryBraceArg cs

/-- The literal `{` of the regex followed by `[^}]*}`. -/
def tryOpenBrace : List Char → Option (List Char)
  | [] => none
  | c :: cs => if c = '\x7b' then tryBraceArg cs else none

/-- Try the alternatives of `\\(label|…|hspace){[^}]*}` in order at the
position following a backslash; return the remainder after the
closing brace of the first alternative that completes. -/
def tryNames : List (List Char) → List Char → Option (List Char)
  | [], _ => none
  | name :: names, cs =>
    match
      (if name.isPrefixOf cs then tryOpenBrace (cs.drop name.length)
      else none) with
    | some r => some r
    | none => tryNames names cs

/-- Whole-regex attempt at a position following a backslash. -/
def tryCommand (cs : List Char) : Option (List Char) := tryNames cmdNames cs

/-- `.replace(/\\(label|nonumber|tag|qquad|quad|vspace|hspace){[^}]*}/g, "")`:
left-to-right scan deleting each match and resuming after it.  The
counter skips the characters of a deleted match (the remainder returned
by `tryCommand` is a suffix of the scanned tail, recovered by its
length), keeping the recursion structural. -/
def stripCmdAux : Nat → List Char → List Char
  | n + 1, _ :: cs => stripCmdAux n cs
  | _, [] => []
  | 0, c :: cs =>
    if c = '\\' then
      match tryCommand cs with
      | some rest => stripCmdAux (cs.length - rest.length) cs
      | none => c :: stripCmdAux 0 cs
    else c :: stripCmdAux 0 cs

/-- Second step of `cleanLatexSyntax`. -/
def stripCommands (l : List Char) : List Char := stripCmdAux 0 l

/-- Greedy match of `\s*[\r\n]` at a `^` position: the longest
whitespace prefix ending in `\r` or `\n`; returns the rest after the
match. -/
def matchBlank : List Char → Option (List Char)
  | [] => none
  | c :: cs =>
    if isSpaceJS c then
      match matchBlank cs with
      | some rest => some rest
      | none => if c = '\r' || c = '\n' then some cs else none
    else none

/-- `.replace(/^\s*[\r\n]/gm, "")`: at every position where the
multiline `^` holds (start of input, or just after a line terminator),
delete the longest whitespace run ending in `\r` or `\n`.  The counter
skips deleted characters as in `stripCmdAux`; the flag records whether
the current position is a `^` position. -/
def stripBlankAux : Nat → Bool → List Char → List Char
  | n + 1, b, _ :: cs => stripBlankAux n b cs
  | _, _, [] => []
  | 0, true, c :: cs =>
    match matchBlank (c :: cs) with
    | some rest => stripBlankAux (cs.length - rest.length) true cs
    | none => c :: stripBlankAux 0 (isLineTermJS c) cs
  | 0, false, c :: cs => c :: stripBlankAux 0 (isLineTermJS c) cs

/-- Third step of `cleanLatexSyntax`. -/
def stripBlank (l : List Char) : List Char := stripBlankAux 0 true l

/-- Whether `/^\s*[\r\n]/m` matches anywhere in the text, the flag
giving the `^` status of the first position. -/
def hasBlank : Bool → List Char → Bool
  | _, [] => false
  | b, c :: cs =>
    (b && (matchBlank (c :: cs)).isSome) || hasBlank (isLineTermJS c) cs

/-- `String.prototype.trim`, leading part. -/
def trimLeft (l : List Char) : List Char := l.dropWhile isSpaceJS

/-- `String.prototype.trim`, trailing part. -/
def trimRight (l : List Char) : List Char :=
  (l.reverse.dropWhile isSpaceJS).reverse

/-- `String.prototype.trim`. -/
def trimJS (l : List Char) : List Char := trimRight (trimLeft l)

/-- `cleanLatexSyntax` (`server.mjs` lines 63–69), the operation the
spec calls `cleanExpression`: comment stripping, command removal,
blank-line removal, trim, in that order. -/
def cleanLatexSyntax (l : List Char) : List Char :=
  trimJS (stripBlank (stripCommands (stripComments l)))

/-- `.replace(/\\/g, "\\\\")` in `writeOutputFile`: double every
backslash (a replacement string has no escape processing for `\`). -/
def escapeBackslashes : List Char → List Char
  | [] => []
  | c :: cs =>
    if c = '\\' then '\\' :: '\\' :: escapeBackslashes cs
    else c :: escapeBackslashes cs

/-- `Array.prototype.join("\n\n")`. -/
def joinSep : List (List Char) → List Char
  | [] => []
  | [e] => e
  | e :: es => e ++ '\n' :: '\n' :: joinSep es

/-- The content computation of `FileHandler.writeOutputFile`
(`server.mjs` lines 98–103), the operation the spec calls
`renderOutput`: per element double backslashes then trim, then join
with a blank line. -/
def renderOutput (exprs : List (List Char)) : List Char :=
  joinSep (exprs.map (fun e => trimJS (escapeBackslashes e)))

-- sanity examples for the cleanup pipeline and the join
example : cleanLatexSyntax "\\label\x7beq:1\x7dx=y".data = "x=y".data := by
  decide

example : cleanLatexSyntax "\\nonumber".data = "\\nonumber".data := by decide

example : cleanLatexSyntax "a\\%b".data = "a\\".data := by decide

example : renderOutput ["a\\b".data, "c".data] = "a\\\\b\n\nc".data := by
  decide

example :
    cleanLatexSyntax "\\la\\tag\x7bx\x7dbel\x7by\x7d".data =
      "\\label\x7by\x7d".data := by decide

example :
    cleanLatexSyntax "\\label\x7by\x7d".data = [] := by decide

example : cleanLatexSyntax "  x %c\n\n  \n y ".data = "x \n y".data := by
  decide

/-!  Lemmas about the extractor. -/

/-- The pass loop of `extractMathExpressions`, unfolded: the output is
the concatenation of the six per-pattern result lists, in source
order. -/
theorem extract_eq_passes (s : List Char) :
    extractMathExpressions s =
      runPattern patParen s ++ runPattern patBracket s ++
      runPattern patDollar s ++ runPattern patEquation s ++
      runPattern patAlign s ++ runPattern patMultline s := by
  simp [extractMathExpressions, mathPatterns]

/-- Every match produced by `matchAllAux` has the shape
`(opn ++ content ++ close, content)`. -/
theorem matchAllAux_shape (opn close : List Char) (dotall : Bool) :
    ∀ (l : List Char) (n : Nat), ∀ m ∈ matchAllAux opn close dotall n l,
      ∃ content, m = (opn ++ content ++ close, content) := by
  intro l
  induction l with
  | nil => intro n m hm; cases n <;> simp [matchAllAux] at hm
  | cons c cs ih =>
    intro n m hm
    cases n with
    | succ k =>
      rw [show matchAllAux opn close dotall (k + 1) (c :: cs) =
        matchAllAux opn close dotall k cs from rfl] at hm
      exact ih k m hm
    | zero =>
      rw [show matchAllAux opn close dotall 0 (c :: cs) =
        (if opn.isPrefixOf (c :: cs) then
          match findClose close dotall ((c :: cs).drop opn.length) with
          | some (content, rest) =>
              (opn ++ content ++ close, content) ::
                matchAllAux opn close dotall (cs.length - rest.length) cs
          | none => matchAllAux opn close dotall 0 cs
        else matchAllAux opn close dotall 0 cs) from rfl] at hm
      split at hm
      · split at hm
        · rename_i content rest _
          rcases List.mem_cons.mp hm with h | h
          · exact ⟨content, h⟩
          · exact ih _ m h
        · exact ih 0 m hm
      · exact ih 0 m hm

/-- When the pattern matches nowhere in the text, the scan of
`matchAll` produces no matches, whatever its skip state. -/
theorem matchAllAux_eq_nil (opn close : List Char) (dotall : Bool) :
    ∀ l : List Char, hasMatch opn close dotall l = false →
      ∀ n, matchAllAux opn close dotall n l = [] := by
  intro l
  induction l with
  | nil => intro _ n; cases n <;> simp [matchAllAux]
  | cons c cs ih =>
    intro h n
    rw [show hasMatch opn close dotall (c :: cs) =
      ((opn.isPrefixOf (c :: cs) &&
        (findClose close dotall ((c :: cs).drop opn.length)).isSome) ||
      hasMatch opn close dotall cs) from rfl] at h
    rcases Bool.or_eq_false_iff.mp h with ⟨h1, h2⟩
    cases n with
    | succ k =>
      rw [show matchAllAux opn close dotall (k + 1) (c :: cs) =
        matchAllAux opn close dotall k cs from rfl]
      exact ih h2 k
    | zero =>
      rw [show matchAllAux opn close dotall 0 (c :: cs) =
        (if opn.isPrefixOf (c :: cs) then
          match findClose close dotall ((c :: cs).drop opn.length) with
          | some (content, rest) =>
              (opn ++ content ++ close, content) ::
                matchAllAux opn close dotall (cs.length - rest.length) cs
          | none => matchAllAux opn close dotall 0 cs
        else matchAllAux opn close dotall 0 cs) from rfl]
      rcases Bool.and_eq_false_iff.mp h1 with hp | hf
      · rw [if_neg (by simp [hp])]
        exact ih h2 0
      · split
        · split
          · rename_i content rest heq
            rw [heq] at hf
            simp at hf
          · exact ih h2 0
        · exact ih h2 0

/-- Every string pushed by the `forEach` body is nonempty: it is either
a nonempty capture or a truthy full match. -/
theorem pushMatches_ne_nil (hg : Bool) :
    ∀ ms, ∀ e ∈ pushMatches hg ms, e ≠ [] := by
  intro ms
  induction ms with
  | nil => intro e he; simp [pushMatches] at he
  | cons m ms ih =>
    intro e he
    rw [show pushMatches hg (m :: ms) =
      (if hg && !m.2.isEmpty then m.2 :: pushMatches hg ms
      else if !m.1.isEmpty then m.1 :: pushMatches hg ms
      else pushMatches hg ms) from rfl] at he
    split at he
    · rename_i hcond
      rcases List.mem_cons.mp he with rfl | h
      · rcases Bool.and_eq_true_iff.mp hcond with ⟨-, h2⟩
        simpa using h2
      · exact ih e h
    · split at he
      · rename_i hcond
        rcases List.mem_cons.mp he with rfl | h
        · simpa using hcond
        · exact ih e h
      · exact ih e he

/-- When every match's full text is nonempty, the `forEach` push body
reduces to a selection map over the matches. -/
theorem pushMatches_eq_map (hg : Bool) :
    ∀ ms : List (List Char × List Char), (∀ m ∈ ms, m.1 ≠ []) →
      pushMatches hg ms =
        ms.map (fun m => if hg = true ∧ m.2 ≠ [] then m.2 else m.1) := by
  intro ms
  induction ms with
  | nil => intro _; rfl
  | cons m ms ih =>
    intro h
    have hm1 : m.1 ≠ [] := h m (List.mem_cons_self m ms)
    have hrest := fun x hx => h x (List.mem_cons_of_mem m hx)
    by_cases h2 : hg = true ∧ m.2 ≠ []
    · have hb : (hg && !m.2.isEmpty) = true := by
        rcases h2 with ⟨h2a, h2b⟩
        simp [h2a, List.isEmpty_iff, h2b]
      rw [show pushMatches hg (m :: ms) =
        (if hg && !m.2.isEmpty then m.2 :: pushMatches hg ms
        else if !m.1.isEmpty then m.1 :: pushMatches hg ms
        else pushMatches hg ms) from rfl]
      simp only [hb, if_true, List.map_cons, if_pos h2]
      exact congrArg _ (ih hrest)
    · have hb : (hg && !m.2.isEmpty) = false := by
        rcases Decidable.not_and_iff_or_not.mp h2 with ha | hb
        · simp [Bool.eq_false_iff.mpr ha]
        · have : m.2 = [] := by
            by_contra hc; exact hb hc
          simp [this]
      have hb1 : (!m.1.isEmpty) = true := by simp [List.isEmpty_iff, hm1]
      rw [show pushMatches hg (m :: ms) =
        (if hg && !m.2.isEmpty then m.2 :: pushMatches hg ms
        else if !m.1.isEmpty then m.1 :: pushMatches hg ms
        else pushMatches hg ms) from rfl]
      simp only [hb, if_false, hb1, if_true, List.map_cons, if_neg h2,
        Bool.false_eq_true]
      exact congrArg _ (ih hrest)

/-- The full match of any pattern of the source contains its opening
delimiter, hence is nonempty. -/
theorem mem_matchAll_fst_ne_nil (opn close : List Char) (dotall : Bool)
    (hopn : opn ≠ []) (s : List Char) :
    ∀ m ∈ matchAll opn close dotall s, m.1 ≠ [] := by
  intro m hm
  rcases matchAllAux_shape opn close dotall s 0 m hm with ⟨content, rfl⟩
  simp [hopn]

/-- C1: for any input containing both a `\(...\)` match and a `$...$`
match, every result of the `\(...\)` pass occupies an output position
strictly before every result of the `$...$` pass, whatever the textual
positions of the matches: the i-th paren-pass result sits at output
index i, and the j-th dollar-pass result sits at the index j offset by
the lengths of the paren and bracket passes. -/
theorem parenPass_precedes_dollarPass (s : List Char) (i j : Nat)
    (hi : i < (runPattern patParen s).length)
    (hj : j < (runPattern patDollar s).length) :
    (extractMathExpressions s)[i]? = (runPattern patParen s)[i]? ∧
    (extractMathExpressions s)[(runPattern patParen s).length +
      (runPattern patBracket s).length + j]? =
      (runPattern patDollar s)[j]? ∧
    i < (runPattern patParen s).length +
      (runPattern patBracket s).length + j := by
  rw [extract_eq_passes]
  refine ⟨?_, ?_, by omega⟩
  · rw [List.getElem?_append_left (by simp only [List.length_append]; omega),
      List.getElem?_append_left (by simp only [List.length_append]; omega),
      List.getElem?_append_left (by simp only [List.length_append]; omega),
      List.getElem?_append_left (by simp only [List.length_append]; omega),
      List.getElem?_append_left hi]
  · rw [List.getElem?_append_left (by simp only [List.length_append]; omega),
      List.getElem?_append_left (by simp only [List.length_append]; omega),
      List.getElem?_append_left (by simp only [List.length_append]; omega),
      List.getElem?_append_right (by simp only [List.length_append]; omega),
      show (runPattern patParen s ++ runPattern patBracket s).length =
        (runPattern patParen s).length +
          (runPattern patBracket s).length from List.length_append _ _,
      Nat.add_sub_cancel_left]

/-- C1 witness: in `"$x$ \(y\)"` the dollar match textually precedes
the paren match, yet the paren-pass result comes first in the
output. -/
theorem parenPass_precedes_dollarPass_witness :
    0 < (runPattern patParen "$x$ \\(y\\)".data).length ∧
    0 < (runPattern patDollar "$x$ \\(y\\)".data).length ∧
    ((extractMathExpressions "$x$ \\(y\\)".data)[0]? =
        (runPattern patParen "$x$ \\(y\\)".data)[0]? ∧
      (extractMathExpressions "$x$ \\(y\\)".data)[
        (runPattern patParen "$x$ \\(y\\)".data).length +
        (runPattern patBracket "$x$ \\(y\\)".data).length + 0]? =
        (runPattern patDollar "$x$ \\(y\\)".data)[0]? ∧
      0 < (runPattern patParen "$x$ \\(y\\)".data).length +
        (runPattern patBracket "$x$ \\(y\\)".data).length + 0) :=
  ⟨by decide, by decide,
    parenPass_precedes_dollarPass "$x$ \\(y\\)".data 0 0
      (by decide) (by decide)⟩

/-- C2: each match contributes its nonempty inner capture when the
pattern has one, and otherwise its full text including delimiters; in
particular extraction of `"\(a+b\)"` keeps the delimiters (pattern 1
has no capture group) and extraction of `"\[a+b\]"` keeps only the
inner content. -/
theorem matchSelection_spec :
    extractMathExpressions "\\(a+b\\)".data = ["\\(a+b\\)".data] ∧
    extractMathExpressions "\\[a+b\\]".data = ["a+b".data] ∧
    ∀ p ∈ mathPatterns, ∀ s : List Char,
      runPattern p s =
        (matchAll p.opn p.close p.dotall s).map
          (fun m => if p.hasGroup = true ∧ m.2 ≠ [] then m.2 else m.1) := by
  refine ⟨by decide, by decide, ?_⟩
  intro p hp s
  have hopn : p.opn ≠ [] := by
    simp only [mathPatterns, List.mem_cons, List.not_mem_nil,
      or_false] at hp
    rcases hp with rfl | rfl | rfl | rfl | rfl | rfl <;> decide
  exact pushMatches_eq_map p.hasGroup _
    (mem_matchAll_fst_ne_nil p.opn p.close p.dotall hopn s)

/-- C2 witness: the selection map instantiated at the dollar pattern on
`"$$"`, where the capture is empty and the full match `"$$"` is kept. -/
theorem matchSelection_spec_witness :
    runPattern patDollar "$$x$y$$".data =
      (matchAll patDollar.opn patDollar.close patDollar.dotall
        "$$x$y$$".data).map
        (fun m => if patDollar.hasGroup = true ∧ m.2 ≠ [] then m.2
          else m.1) :=
  matchSelection_spec.2.2 patDollar (by decide) "$$x$y$$".data

/-- C7: when none of the six delimiter conventions matches anywhere in
the input, `extractMathExpressions` returns the empty list (an
ordinary value of the result type, not an error). -/
theorem extract_nil_of_no_delims (s : List Char)
    (h : ∀ p ∈ mathPatterns, hasPatternMatch p s = false) :
    extractMathExpressions s = [] := by
  rw [extract_eq_passes]
  have hp : ∀ p ∈ mathPatterns, runPattern p s = [] := by
    intro p hpmem
    unfold runPattern matchAll
    rw [matchAllAux_eq_nil p.opn p.close p.dotall s (h p hpmem) 0]
    rfl
  rw [hp patParen (by simp [mathPatterns]),
    hp patBracket (by simp [mathPatterns]),
    hp patDollar (by simp [mathPatterns]),
    hp patEquation (by simp [mathPatterns]),
    hp patAlign (by simp [mathPatterns]),
    hp patMultline (by simp [mathPatterns])]
  rfl

/-- C7 witness: plain prose with no delimiters extracts to `[]`. -/
theorem extract_nil_of_no_delims_witness :
    (∀ p ∈ mathPatterns, hasPatternMatch p "hello world".data = false) ∧
    extractMathExpressions "hello world".data = [] :=
  ⟨by decide, extract_nil_of_no_delims "hello world".data (by decide)⟩

/-- C9: every element of the extractor's output is a nonempty string:
an empty capture (as in the `$$` case) falls back to the full match,
which contains its delimiters. -/
theorem extract_mem_ne_nil (s : List Char) :
    ∀ e ∈ extractMathExpressions s, e ≠ [] := by
  intro e he
  rw [extract_eq_passes] at he
  simp only [List.mem_append] at he
  rcases he with ((((h | h) | h) | h) | h) | h <;>
    exact pushMatches_ne_nil _ _ e h

/-- C9 witness: on `"$$"` the dollar capture is empty and the full
match `"$$"` is pushed, a nonempty string. -/
theorem extract_mem_ne_nil_witness : "$$".data ≠ ([] : List Char) :=
  extract_mem_ne_nil "$$".data "$$".data (by decide)

/-!  Lemmas about the cleanup pipeline. -/

/-- Characters that are not `%` pass through the comment stripper
untouched while outside a comment. -/
theorem stripCommentsAux_append (pre : List Char) (hpre : '%' ∉ pre) :
    ∀ l, stripCommentsAux false (pre ++ l) = pre ++ stripCommentsAux false l := by
  induction pre with
  | nil => intro l; rfl
  | cons c cs ih =>
    intro l
    have hc : c ≠ '%' := fun h => hpre (h ▸ List.mem_cons_self c cs)
    have hcs : '%' ∉ cs := fun h => hpre (List.mem_cons_of_mem c h)
    simp only [List.cons_append]
    rw [show stripCommentsAux false (c :: (cs ++ l)) =
      (if isLineTermJS c then c :: stripCommentsAux false (cs ++ l)
      else if c = '%' then stripCommentsAux true (cs ++ l)
      else c :: stripCommentsAux false (cs ++ l)) from by
        rw [show stripCommentsAux false (c :: (cs ++ l)) =
          (if isLineTermJS c then c :: stripCommentsAux false (cs ++ l)
          else if false = true then stripCommentsAux true (cs ++ l)
          else if c = '%' then stripCommentsAux true (cs ++ l)
          else c :: stripCommentsAux false (cs ++ l)) from rfl]
        simp]
    by_cases hl : isLineTermJS c
    · simp [hl, ih hcs l]
    · simp [hl, hc, ih hcs l]

/-- Inside a comment, every character up to the next line terminator
is dropped. -/
theorem stripCommentsAux_comment (suf : List Char)
    (hsuf : ∀ c ∈ suf, isLineTermJS c = false) :
    ∀ l, stripCommentsAux true (suf ++ l) = stripCommentsAux true l := by
  induction suf with
  | nil => intro l; rfl
  | cons c cs ih =>
    intro l
    have hc : isLineTermJS c = false := hsuf c (List.mem_cons_self c cs)
    have hcs := fun x hx => hsuf x (List.mem_cons_of_mem c hx)
    simp only [List.cons_append]
    rw [show stripCommentsAux true (c :: (cs ++ l)) =
      (if isLineTermJS c then c :: stripCommentsAux false (cs ++ l)
      else stripCommentsAux true (cs ++ l)) from by
        rw [show stripCommentsAux true (c :: (cs ++ l)) =
          (if isLineTermJS c then c :: stripCommentsAux false (cs ++ l)
          else if true = true then stripCommentsAux true (cs ++ l)
          else if c = '%' then stripCommentsAux true (cs ++ l)
          else c :: stripCommentsAux false (cs ++ l)) from rfl]
        simp]
    simp [hc, ih hcs l]

/-- C3, amended: on every line the comment stripper removes exactly
the text from the first `%` — escaped or not — to the end of the line,
keeps the content before the `%` unaltered, and continues with the
following lines.  (`pre` is the line content before the first `%`,
`suf` the comment body, `rest` the rest of the input starting at the
line terminator, if any.) -/
theorem stripComments_line (pre suf rest : List Char)
    (hpre : '%' ∉ pre)
    (hsuf : ∀ c ∈ suf, isLineTermJS c = false)
    (hrest : rest = [] ∨ ∃ t rest2, rest = t :: rest2 ∧ isLineTermJS t = true) :
    stripComments (pre ++ '%' :: (suf ++ rest)) = pre ++ stripComments rest := by
  unfold stripComments
  rw [stripCommentsAux_append pre hpre]
  congr 1
  rw [show stripCommentsAux false ('%' :: (suf ++ rest)) =
    stripCommentsAux true (suf ++ rest) from by
      rw [show stripCommentsAux false ('%' :: (suf ++ rest)) =
        (if isLineTermJS '%' then '%' :: stripCommentsAux false (suf ++ rest)
        else if false = true then stripCommentsAux true (suf ++ rest)
        else if '%' = '%' then stripCommentsAux true (suf ++ rest)
        else '%' :: stripCommentsAux false (suf ++ rest)) from rfl]
      simp [isLineTermJS]]
  rw [stripCommentsAux_comment suf hsuf]
  rcases hrest with rfl | ⟨t, rest2, rfl, ht⟩
  · rfl
  · rw [show stripCommentsAux true (t :: rest2) =
      (if isLineTermJS t then t :: stripCommentsAux false rest2
      else stripCommentsAux true rest2) from by
        rw [show stripCommentsAux true (t :: rest2) =
          (if isLineTermJS t then t :: stripCommentsAux false rest2
          else if true = true then stripCommentsAux true rest2
          else if t = '%' then stripCommentsAux true rest2
          else t :: stripCommentsAux false rest2) from rfl]
        simp,
      show stripCommentsAux false (t :: rest2) =
      (if isLineTermJS t then t :: stripCommentsAux false rest2
      else if t = '%' then stripCommentsAux true rest2
      else t :: stripCommentsAux false rest2) from by
        rw [show stripCommentsAux false (t :: rest2) =
          (if isLineTermJS t then t :: stripCommentsAux false rest2
          else if false = true then stripCommentsAux true rest2
          else if t = '%' then stripCommentsAux true rest2
          else t :: stripCommentsAux false rest2) from rfl]
        simp]
    simp [ht]

/-- C3 amended, witness: the line `"x=1 % c"` followed by `"\ny"`
loses exactly its comment tail. -/
theorem stripComments_line_witness :
    ('%' ∉ "x=1 ".data) ∧
    stripComments ("x=1 ".data ++ '%' :: (" c".data ++ '\n' :: "y".data)) =
      "x=1 ".data ++ stripComments ('\n' :: "y".data) :=
  ⟨by decide,
    stripComments_line "x=1 ".data " c".data ('\n' :: "y".data)
      (by decide) (by decide)
      (Or.inr ⟨'\n', "y".data, rfl, by decide⟩)⟩

/-- C3 counterexample: the code's comment regex `/%.*$/gm` has no
escape handling, so `\%` is also treated as a comment start: on
`"a\%b"` the text from `%` on is removed, leaving `"a\"` instead of
the claimed untouched `"a\%b"`. -/
theorem stripComments_escaped_percent_ce :
    stripComments "a\\%b".data = "a\\".data ∧
    cleanLatexSyntax "a\\%b".data = "a\\".data ∧
    stripComments "a\\%b".data ≠ "a\\%b".data := by
  refine ⟨by decide, by decide, by decide⟩

/-!  Step and skip equations for the scanners with a skip counter. -/

/-- A suffix is recovered from the list by dropping the length
difference. -/
theorem suffix_drop_eq {r l : List Char} (h : r <:+ l) :
    l.drop (l.length - r.length) = r := by
  obtain ⟨t, rfl⟩ := h
  rw [List.length_append, Nat.add_sub_cancel, List.drop_left]

theorem stripCmdAux_zero_cons (c : Char) (cs : List Char) :
    stripCmdAux 0 (c :: cs) =
      if c = '\\' then
        match tryCommand cs with
        | some rest => stripCmdAux (cs.length - rest.length) cs
        | none => c :: stripCmdAux 0 cs
      else c :: stripCmdAux 0 cs := rfl

theorem stripCmdAux_skip_eq : ∀ (n : Nat) (l : List Char),
    stripCmdAux n l = stripCmdAux 0 (l.drop n)
  | 0, l => by rw [List.drop_zero]
  | n + 1, [] => by rw [List.drop_nil]; rfl
  | n + 1, c :: cs => by
    rw [show stripCmdAux (n + 1) (c :: cs) = stripCmdAux n cs from rfl,
      List.drop_succ_cons, stripCmdAux_skip_eq n cs]

theorem tryBraceArg_suffix : ∀ l r, tryBraceArg l = some r → r <:+ l := by
  intro l
  induction l with
  | nil => intro r h; simp [tryBraceArg] at h
  | cons c cs ih =>
    intro r h
    rw [show tryBraceArg (c :: cs) =
      (if c = '\x7d' then some cs else tryBraceArg cs) from rfl] at h
    split at h
    · exact (Option.some_inj.mp h) ▸ (List.suffix_cons c cs)
    · exact (ih r h).trans (List.suffix_cons c cs)

theorem tryOpenBrace_suffix : ∀ l r, tryOpenBrace l = some r → r <:+ l := by
  intro l r h
  cases l with
  | nil => exact absurd h (by simp [tryOpenBrace])
  | cons c cs =>
    rw [show tryOpenBrace (c :: cs) =
      (if c = '\x7b' then tryBraceArg cs else none) from rfl] at h
    split at h
    · exact (tryBraceArg_suffix cs r h).trans (List.suffix_cons c cs)
    · exact absurd h (by simp)

theorem tryNames_suffix : ∀ (names : List (List Char)) cs r,
    tryNames names cs = some r → r <:+ cs := by
  intro names
  induction names with
  | nil => intro cs r h; simp [tryNames] at h
  | cons name rest ih =>
    intro cs r h
    rw [show tryNames (name :: rest) cs =
      (match
        (if name.isPrefixOf cs then tryOpenBrace (cs.drop name.length)
        else none) with
      | some r2 => some r2
      | none => tryNames rest cs) from rfl] at h
    split at h
    · rename_i r2 heq
      split at heq
      · have hsfx := (tryOpenBrace_suffix _ r2 heq).trans
          (List.drop_suffix name.length cs)
        cases Option.some_inj.mp h
        exact hsfx
      · exact absurd heq (by simp)
    · exact ih cs r h

theorem tryCommand_suffix {cs r : List Char} (h : tryCommand cs = some r) :
    r <:+ cs := tryNames_suffix cmdNames cs r h

/-- The scan of `stripCommands`, after deleting a match, continues at
the remainder returned by `tryCommand`. -/
theorem stripCmdAux_match {c : Char} {cs rest : List Char}
    (hc : c = '\\') (h : tryCommand cs = some rest) :
    stripCmdAux 0 (c :: cs) = stripCmdAux 0 rest := by
  rw [stripCmdAux_zero_cons, if_pos hc, h]
  show stripCmdAux (cs.length - rest.length) cs = stripCmdAux 0 rest
  rw [stripCmdAux_skip_eq, suffix_drop_eq (tryCommand_suffix h)]

theorem stripCmdAux_nomatch {c : Char} {cs : List Char}
    (h : tryCommand cs = none) :
    stripCmdAux 0 (c :: cs) = c :: stripCmdAux 0 cs := by
  rw [stripCmdAux_zero_cons]
  split
  · rw [h]
  · rfl

theorem stripCmdAux_keep {c : Char} {cs : List Char} (hc : c ≠ '\\') :
    stripCmdAux 0 (c :: cs) = c :: stripCmdAux 0 cs := by
  rw [stripCmdAux_zero_cons, if_neg hc]

theorem stripBlankAux_zero_true (c : Char) (cs : List Char) :
    stripBlankAux 0 true (c :: cs) =
      match matchBlank (c :: cs) with
      | some rest => stripBlankAux (cs.length - rest.length) true cs
      | none => c :: stripBlankAux 0 (isLineTermJS c) cs := rfl

theorem stripBlankAux_zero_false (c : Char) (cs : List Char) :
    stripBlankAux 0 false (c :: cs) =
      c :: stripBlankAux 0 (isLineTermJS c) cs := rfl

theorem stripBlankAux_skip_eq : ∀ (n : Nat) (b : Bool) (l : List Char),
    stripBlankAux n b l = stripBlankAux 0 b (l.drop n)
  | 0, b, l => by rw [List.drop_zero]
  | n + 1, b, [] => by rw [List.drop_nil]; cases b <;> rfl
  | n + 1, b, c :: cs => by
    rw [show stripBlankAux (n + 1) b (c :: cs) = stripBlankAux n b cs from rfl,
      List.drop_succ_cons, stripBlankAux_skip_eq n b cs]

theorem matchBlank_cons (c : Char) (cs : List Char) :
    matchBlank (c :: cs) =
      (if isSpaceJS c then
        match matchBlank cs with
        | some rest => some rest
        | none => if c = '\r' || c = '\n' then some cs else none
      else none) := rfl

theorem matchBlank_suffix : ∀ cs (c : Char) r,
    matchBlank (c :: cs) = some r → r <:+ cs := by
  intro cs
  induction cs with
  | nil =>
    intro c r h
    rw [show matchBlank [c] =
      (if isSpaceJS c then
        if c = '\r' || c = '\n' then some [] else none
      else none) from rfl] at h
    split at h
    · split at h
      · cases Option.some_inj.mp h; exact List.suffix_refl []
      · exact absurd h (by simp)
    · exact absurd h (by simp)
  | cons c2 cs2 ih =>
    intro c r h
    cases hmb : matchBlank (c2 :: cs2) with
    | some rest =>
      rw [matchBlank_cons, hmb] at h
      split at h
      · have hsfx := ih c2 rest hmb
        rw [show (match some rest with
          | some rest => some rest
          | none =>
              if c = '\r' || c = '\n' then some (c2 :: cs2) else none) =
          some rest from rfl] at h
        cases Option.some_inj.mp h
        exact hsfx.trans (List.suffix_cons c2 cs2)
      · exact absurd h (by simp)
    | none =>
      rw [matchBlank_cons, hmb] at h
      split at h
      · rw [show (match (none : Option (List Char)) with
          | some rest => some rest
          | none =>
              if c = '\r' || c = '\n' then some (c2 :: cs2) else none) =
          (if c = '\r' || c = '\n' then some (c2 :: cs2) else none)
          from rfl] at h
        split at h
        · cases Option.some_inj.mp h; exact List.suffix_refl _
        · exact absurd h (by simp)
      · exact absurd h (by simp)

/-- The scan of `stripBlank`, after deleting a blank-line match,
continues at the remainder — again a `^` position. -/
theorem stripBlankAux_match {c : Char} {cs rest : List Char}
    (h : matchBlank (c :: cs) = some rest) :
    stripBlankAux 0 true (c :: cs) = stripBlankAux 0 true rest := by
  rw [stripBlankAux_zero_true, h]
  show stripBlankAux (cs.length - rest.length) true cs = stripBlankAux 0 true rest
  rw [stripBlankAux_skip_eq, suffix_drop_eq (matchBlank_suffix cs c rest h)]

theorem stripBlankAux_nomatch {c : Char} {cs : List Char}
    (h : matchBlank (c :: cs) = none) :
    stripBlankAux 0 true (c :: cs) = c :: stripBlankAux 0 (isLineTermJS c) cs := by
  rw [stripBlankAux_zero_true, h]

/-!  Computation lemmas for the command-removal regex. -/

theorem tryNames_cons (name : List Char) (names : List (List Char))
    (cs : List Char) :
    tryNames (name :: names) cs =
      match
        (if name.isPrefixOf cs then tryOpenBrace (cs.drop name.length)
        else none) with
      | some r => some r
      | none => tryNames names cs := rfl

theorem tryNames_cons_miss {name cs : List Char}
    {names : List (List Char)} (h : name.isPrefixOf cs = false) :
    tryNames (name :: names) cs = tryNames names cs := by
  rw [tryNames_cons, h]
  rfl

theorem isPrefixOf_append_self : ∀ (l r : List Char),
    l.isPrefixOf (l ++ r) = true := by
  intro l r
  induction l with
  | nil => simp [List.isPrefixOf]
  | cons c cs ih => simp [List.isPrefixOf, ih]

/-- `[^}]*}` consumes exactly up to the first closing brace. -/
theorem tryBraceArg_closing : ∀ (arg : List Char), '\x7d' ∉ arg →
    ∀ s₂, tryBraceArg (arg ++ '\x7d' :: s₂) = some s₂ := by
  intro arg
  induction arg with
  | nil => intro _ s₂; rfl
  | cons c cs ih =>
    intro h s₂
    have hc : c ≠ '\x7d' := fun hh => h (hh ▸ List.mem_cons_self c cs)
    rw [List.cons_append,
      show tryBraceArg (c :: (cs ++ '\x7d' :: s₂)) =
        (if c = '\x7d' then some (cs ++ '\x7d' :: s₂)
        else tryBraceArg (cs ++ '\x7d' :: s₂)) from rfl,
      if_neg hc]
    exact ih (fun hh => h (List.mem_cons_of_mem c hh)) s₂

theorem tryOpenBrace_closing (arg : List Char) (h : '\x7d' ∉ arg)
    (s₂ : List Char) :
    tryOpenBrace ('\x7b' :: (arg ++ '\x7d' :: s₂)) = some s₂ := by
  rw [show tryOpenBrace ('\x7b' :: (arg ++ '\x7d' :: s₂)) =
    (if ('\x7b' : Char) = '\x7b' then tryBraceArg (arg ++ '\x7d' :: s₂)
    else none) from rfl, if_pos rfl]
  exact tryBraceArg_closing arg h s₂

theorem tryNames_cons_hit {name arg s₂ : List Char}
    {names : List (List Char)} (harg : '\x7d' ∉ arg) :
    tryNames (name :: names) (name ++ '\x7b' :: (arg ++ '\x7d' :: s₂)) =
      some s₂ := by
  rw [tryNames_cons, isPrefixOf_append_self, List.drop_left]
  show (match tryOpenBrace ('\x7b' :: (arg ++ '\x7d' :: s₂)) with
    | some r2 => some r2
    | none => tryNames names (name ++ '\x7b' :: (arg ++ '\x7d' :: s₂))) =
    some s₂
  rw [tryOpenBrace_closing arg harg s₂]

theorem tryNames_cons_skip {name s₂ : List Char}
    {names : List (List Char)} (hnone : tryOpenBrace s₂ = none) :
    tryNames (name :: names) (name ++ s₂) = tryNames names (name ++ s₂) := by
  rw [tryNames_cons, isPrefixOf_append_self, List.drop_left]
  show (match tryOpenBrace s₂ with
    | some r2 => some r2
    | none => tryNames names (name ++ s₂)) = tryNames names (name ++ s₂)
  rw [hnone]

/-- The regex matches `\name{arg}` and returns the remainder, for each
of the seven command names, whatever text follows. -/
theorem tryCommand_hit : ∀ name ∈ cmdNames, ∀ (arg : List Char),
    '\x7d' ∉ arg → ∀ s₂,
    tryCommand (name ++ '\x7b' :: (arg ++ '\x7d' :: s₂)) = some s₂ := by
  intro name hname arg harg s₂
  simp only [cmdNames, List.mem_cons, List.not_mem_nil, or_false] at hname
  unfold tryCommand
  simp only [cmdNames]
  rcases hname with rfl | rfl | rfl | rfl | rfl | rfl | rfl
  · exact tryNames_cons_hit harg
  · rw [tryNames_cons_miss (by simp [List.isPrefixOf])]
    exact tryNames_cons_hit harg
  · rw [tryNames_cons_miss (by simp [List.isPrefixOf]),
      tryNames_cons_miss (by simp [List.isPrefixOf])]
    exact tryNames_cons_hit harg
  · rw [tryNames_cons_miss (by simp [List.isPrefixOf]),
      tryNames_cons_miss (by simp [List.isPrefixOf]),
      tryNames_cons_miss (by simp [List.isPrefixOf])]
    exact tryNames_cons_hit harg
  · rw [tryNames_cons_miss (by simp [List.isPrefixOf]),
      tryNames_cons_miss (by simp [List.isPrefixOf]),
      tryNames_cons_miss (by simp [List.isPrefixOf]),
      tryNames_cons_miss (by simp [List.isPrefixOf])]
    exact tryNames_cons_hit harg
  · rw [tryNames_cons_miss (by simp [List.isPrefixOf]),
      tryNames_cons_miss (by simp [List.isPrefixOf]),
      tryNames_cons_miss (by simp [List.isPrefixOf]),
      tryNames_cons_miss (by simp [List.isPrefixOf]),
      tryNames_cons_miss (by simp [List.isPrefixOf])]
    exact tryNames_cons_hit harg
  · rw [tryNames_cons_miss (by simp [List.isPrefixOf]),
      tryNames_cons_miss (by simp [List.isPrefixOf]),
      tryNames_cons_miss (by simp [List.isPrefixOf]),
      tryNames_cons_miss (by simp [List.isPrefixOf]),
      tryNames_cons_miss (by simp [List.isPrefixOf]),
      tryNames_cons_miss (by simp [List.isPrefixOf])]
    exact tryNames_cons_hit harg

/-- The regex does not match a bare command: when no opening brace
follows the name, every alternative fails. -/
theorem tryCommand_bare : ∀ name ∈ cmdNames, ∀ s₂ : List Char,
    (s₂ = [] ∨ ∃ c t, s₂ = c :: t ∧ c ≠ '\x7b') →
    tryCommand (name ++ s₂) = none := by
  intro name hname s₂ hs
  have hnone : tryOpenBrace s₂ = none := by
    rcases hs with rfl | ⟨c, t, rfl, hc⟩
    · rfl
    · rw [show tryOpenBrace (c :: t) =
        (if c = '\x7b' then tryBraceArg t else none) from rfl, if_neg hc]
  simp only [cmdNames, List.mem_cons, List.not_mem_nil, or_false] at hname
  unfold tryCommand
  simp only [cmdNames]
  rcases hname with rfl | rfl | rfl | rfl | rfl | rfl | rfl
  · rw [tryNames_cons_skip hnone,
      tryNames_cons_miss (by simp [List.isPrefixOf]),
      tryNames_cons_miss (by simp [List.isPrefixOf]),
      tryNames_cons_miss (by simp [List.isPrefixOf]),
      tryNames_cons_miss (by simp [List.isPrefixOf]),
      tryNames_cons_miss (by simp [List.isPrefixOf]),
      tryNames_cons_miss (by simp [List.isPrefixOf])]
    rfl
  · rw [tryNames_cons_miss (by simp [List.isPrefixOf]),
      tryNames_cons_skip hnone,
      tryNames_cons_miss (by simp [List.isPrefixOf]),
      tryNames_cons_miss (by simp [List.isPrefixOf]),
      tryNames_cons_miss (by simp [List.isPrefixOf]),
      tryNames_cons_miss (by simp [List.isPrefixOf]),
      tryNames_cons_miss (by simp [List.isPrefixOf])]
    rfl
  · rw [tryNames_cons_miss (by simp [List.isPrefixOf]),
      tryNames_cons_miss (by simp [List.isPrefixOf]),
      tryNames_cons_skip hnone,
      tryNames_cons_miss (by simp [List.isPrefixOf]),
      tryNames_cons_miss (by simp [List.isPrefixOf]),
      tryNames_cons_miss (by simp [List.isPrefixOf]),
      tryNames_cons_miss (by simp [List.isPrefixOf])]
    rfl
  · rw [tryNames_cons_miss (by simp [List.isPrefixOf]),
      tryNames_cons_miss (by simp [List.isPrefixOf]),
      tryNames_cons_miss (by simp [List.isPrefixOf]),
      tryNames_cons_skip hnone,
      tryNames_cons_miss (by simp [List.isPrefixOf]),
      tryNames_cons_miss (by simp [List.isPrefixOf]),
      tryNames_cons_miss (by simp [List.isPrefixOf])]
    rfl
  · rw [tryNames_cons_miss (by simp [List.isPrefixOf]),
      tryNames_cons_miss (by simp [List.isPrefixOf]),
      tryNames_cons_miss (by simp [List.isPrefixOf]),
      tryNames_cons_miss (by simp [List.isPrefixOf]),
      tryNames_cons_skip hnone,
      tryNames_cons_miss (by simp [List.isPrefixOf]),
      tryNames_cons_miss (by simp [List.isPrefixOf])]
    rfl
  · rw [tryNames_cons_miss (by simp [List.isPrefixOf]),
      tryNames_cons_miss (by simp [List.isPrefixOf]),
      tryNames_cons_miss (by simp [List.isPrefixOf]),
      tryNames_cons_miss (by simp [List.isPrefixOf]),
      tryNames_cons_miss (by simp [List.isPrefixOf]),
      tryNames_cons_skip hnone,
      tryNames_cons_miss (by simp [List.isPrefixOf])]
    rfl
  · rw [tryNames_cons_miss (by simp [List.isPrefixOf]),
      tryNames_cons_miss (by simp [List.isPrefixOf]),
      tryNames_cons_miss (by simp [List.isPrefixOf]),
      tryNames_cons_miss (by simp [List.isPrefixOf]),
      tryNames_cons_miss (by simp [List.isPrefixOf]),
      tryNames_cons_miss (by simp [List.isPrefixOf]),
      tryNames_cons_skip hnone]
    rfl

/-- Text without backslashes passes through `stripCommands`
unaltered. -/
theorem stripCmdAux_append (u : List Char) (hu : '\\' ∉ u) :
    ∀ v, stripCmdAux 0 (u ++ v) = u ++ stripCmdAux 0 v := by
  induction u with
  | nil => intro v; rfl
  | cons c cs ih =>
    intro v
    have hc : c ≠ '\\' := fun h => hu (h ▸ List.mem_cons_self c cs)
    rw [List.cons_append, stripCmdAux_keep hc,
      ih (fun h => hu (List.mem_cons_of_mem c h)) v, List.cons_append]

/-- C4: `cleanExpression` deletes every occurrence of one of the seven
commands immediately followed by a brace argument — command and
argument together — while a bare occurrence with no brace argument
survives untouched; `"\label{eq:1}x=y"` cleans to `"x=y"` and a bare
`"\nonumber"` is left unchanged. -/
theorem stripCommands_cmd_removal :
    (∀ (pre name arg s₂ : List Char), name ∈ cmdNames → '\\' ∉ pre →
      '\x7d' ∉ arg →
      stripCommands (pre ++ '\\' :: (name ++ '\x7b' :: (arg ++ '\x7d' :: s₂))) =
        pre ++ stripCommands s₂) ∧
    (∀ (name s₂ : List Char), name ∈ cmdNames →
      (s₂ = [] ∨ ∃ c t, s₂ = c :: t ∧ c ≠ '\x7b') →
      stripCommands ('\\' :: (name ++ s₂)) =
        '\\' :: (name ++ stripCommands s₂)) ∧
    cleanLatexSyntax "\\label\x7beq:1\x7dx=y".data = "x=y".data ∧
    cleanLatexSyntax "\\nonumber".data = "\\nonumber".data := by
  refine ⟨?_, ?_, by decide, by decide⟩
  · intro pre name arg s₂ hname hpre harg
    unfold stripCommands
    rw [stripCmdAux_append pre hpre,
      stripCmdAux_match rfl (tryCommand_hit name hname arg harg s₂)]
  · intro name s₂ hname hs
    have hnb : '\\' ∉ name := by
      simp only [cmdNames, List.mem_cons, List.not_mem_nil, or_false] at hname
      rcases hname with rfl | rfl | rfl | rfl | rfl | rfl | rfl <;> decide
    unfold stripCommands
    rw [stripCmdAux_nomatch (tryCommand_bare name hname s₂ hs),
      stripCmdAux_append name hnb s₂]

/-- C4 witness: `\label{eq}` deleted inside surrounding text, and a
bare `\quad` kept. -/
theorem stripCommands_cmd_removal_witness :
    stripCommands ("x".data ++ '\\' ::
        (['l', 'a', 'b', 'e', 'l'] ++ '\x7b' ::
          ("eq".data ++ '\x7d' :: "y".data))) =
      "x".data ++ stripCommands "y".data ∧
    stripCommands ('\\' :: (['q', 'u', 'a', 'd'] ++ " x".data)) =
      '\\' :: (['q', 'u', 'a', 'd'] ++ stripCommands " x".data) :=
  ⟨stripCommands_cmd_removal.1 "x".data ['l', 'a', 'b', 'e', 'l']
      "eq".data "y".data (by decide) (by decide) (by decide),
    stripCommands_cmd_removal.2.1 ['q', 'u', 'a', 'd'] " x".data (by decide)
      (Or.inr ⟨' ', "x".data, rfl, by decide⟩)⟩

/-- C5: the join step doubles every backslash of each element, trims
it, and joins with exactly the two characters `"\n\n"` between
consecutive elements; on `["a\b", "c"]` it returns `"a\\b\n\nc"`. -/
theorem renderOutput_spec :
    renderOutput [] = [] ∧
    (∀ e, renderOutput [e] = trimJS (escapeBackslashes e)) ∧
    (∀ e es, es ≠ [] →
      renderOutput (e :: es) =
        trimJS (escapeBackslashes e) ++ '\n' :: '\n' :: renderOutput es) ∧
    renderOutput ["a\\b".data, "c".data] = "a\\\\b\n\nc".data := by
  refine ⟨rfl, fun e => rfl, ?_, by decide⟩
  intro e es hes
  cases es with
  | nil => exact absurd rfl hes
  | cons e2 es2 => rfl

/-- C5 witness: the blank-line join on a two-element list. -/
theorem renderOutput_spec_witness :
    renderOutput ["x".data, "y".data] =
      trimJS (escapeBackslashes "x".data) ++ '\n' :: '\n' ::
        renderOutput ["y".data] :=
  renderOutput_spec.2.2.1 "x".data ["y".data] (by decide)

/-!  Preparation for idempotence: the cleaned output contains no `%`,
so a second comment-stripping pass is the identity. -/

theorem stripCommentsAux_false_cons (c : Char) (cs : List Char) :
    stripCommentsAux false (c :: cs) =
      if isLineTermJS c then c :: stripCommentsAux false cs
      else if c = '%' then stripCommentsAux true cs
      else c :: stripCommentsAux false cs := by
  rw [show stripCommentsAux false (c :: cs) =
    (if isLineTermJS c then c :: stripCommentsAux false cs
    else if false = true then stripCommentsAux true cs
    else if c = '%' then stripCommentsAux true cs
    else c :: stripCommentsAux false cs) from rfl]
  simp

theorem stripCommentsAux_true_cons (c : Char) (cs : List Char) :
    stripCommentsAux true (c :: cs) =
      if isLineTermJS c then c :: stripCommentsAux false cs
      else stripCommentsAux true cs := by
  rw [show stripCommentsAux true (c :: cs) =
    (if isLineTermJS c then c :: stripCommentsAux false cs
    else if true = true then stripCommentsAux true cs
    else if c = '%' then stripCommentsAux true cs
    else c :: stripCommentsAux false cs) from rfl]
  simp

/-- The comment stripper never emits a `%`. -/
theorem percent_not_mem_stripCommentsAux :
    ∀ (l : List Char) (b : Bool), '%' ∉ stripCommentsAux b l := by
  intro l
  induction l with
  | nil => intro b; cases b <;> simp [stripCommentsAux]
  | cons c cs ih =>
    intro b hmem
    cases b with
    | true =>
      rw [stripCommentsAux_true_cons] at hmem
      split at hmem
      · rename_i hl
        rcases List.mem_cons.mp hmem with heq | hmem2
        · rw [← heq] at hl
          exact absurd hl (by decide)
        · exact ih false hmem2
      · exact ih true hmem
    | false =>
      rw [stripCommentsAux_false_cons] at hmem
      split at hmem
      · rename_i hl
        rcases List.mem_cons.mp hmem with heq | hmem2
        · rw [← heq] at hl
          exact absurd hl (by decide)
        · exact ih false hmem2
      · split at hmem
        · exact ih true hmem
        · rename_i hpc
          rcases List.mem_cons.mp hmem with heq | hmem2
          · exact hpc heq.symm
          · exact ih false hmem2

/-- Each later cleanup step only keeps characters of its input. -/
theorem mem_stripCmdAux : ∀ (l : List Char) (n : Nat) (c : Char),
    c ∈ stripCmdAux n l → c ∈ l := by
  intro l
  induction l with
  | nil =>
    intro n c h
    cases n <;> exact absurd h (List.not_mem_nil c)
  | cons d ds ih =>
    intro n c h
    cases n with
    | succ k =>
      exact List.mem_cons_of_mem d (ih k c h)
    | zero =>
      rw [stripCmdAux_zero_cons] at h
      split at h
      · cases htc : tryCommand ds with
        | some rest =>
          rw [htc] at h
          exact List.mem_cons_of_mem d (ih _ c h)
        | none =>
          rw [htc] at h
          rcases List.mem_cons.mp h with rfl | h2
          · exact List.mem_cons_self c ds
          · exact List.mem_cons_of_mem d (ih 0 c h2)
      · rcases List.mem_cons.mp h with rfl | h2
        · exact List.mem_cons_self c ds
        · exact List.mem_cons_of_mem d (ih 0 c h2)

theorem stripBlankAux_nil (n : Nat) (b : Bool) : stripBlankAux n b [] = [] := by
  cases n <;> cases b <;> rfl

theorem mem_stripBlankAux : ∀ (l : List Char) (n : Nat) (b : Bool) (c : Char),
    c ∈ stripBlankAux n b l → c ∈ l := by
  intro l
  induction l with
  | nil =>
    intro n b c h
    rw [stripBlankAux_nil] at h
    exact absurd h (List.not_mem_nil c)
  | cons d ds ih =>
    intro n b c h
    cases n with
    | succ k => exact List.mem_cons_of_mem d (ih k b c h)
    | zero =>
      cases b with
      | false =>
        rw [stripBlankAux_zero_false] at h
        rcases List.mem_cons.mp h with rfl | h2
        · exact List.mem_cons_self c ds
        · exact List.mem_cons_of_mem d (ih 0 _ c h2)
      | true =>
        cases hmb : matchBlank (d :: ds) with
        | some rest =>
          rw [stripBlankAux_zero_true, hmb] at h
          exact List.mem_cons_of_mem d (ih _ true c h)
        | none =>
          rw [stripBlankAux_nomatch hmb] at h
          rcases List.mem_cons.mp h with rfl | h2
          · exact List.mem_cons_self c ds
          · exact List.mem_cons_of_mem d (ih 0 _ c h2)

theorem mem_trimJS (c : Char) (l : List Char) (h : c ∈ trimJS l) : c ∈ l := by
  have h1 : c ∈ trimLeft l := by
    have := List.mem_reverse.mp
      ((List.dropWhile_suffix isSpaceJS).sublist.subset
        (List.mem_reverse.mp h))
    simpa using this
  exact (List.dropWhile_suffix isSpaceJS).sublist.subset h1

/-- The cleaned output contains no `%` character at all. -/
theorem percent_not_mem_clean (x : List Char) : '%' ∉ cleanLatexSyntax x :=
  fun hmem =>
    percent_not_mem_stripCommentsAux x false
      (mem_stripCmdAux _ 0 '%'
        (mem_stripBlankAux _ 0 true '%' (mem_trimJS '%' _ hmem)))

/-- Comment stripping is the identity on `%`-free text. -/
theorem stripComments_id_of_no_percent :
    ∀ l : List Char, '%' ∉ l → stripComments l = l := by
  intro l
  unfold stripComments
  induction l with
  | nil => intro _; rfl
  | cons c cs ih =>
    intro h
    have hc : c ≠ '%' := fun hh => h (hh ▸ List.mem_cons_self c cs)
    have hcs := ih (fun hh => h (List.mem_cons_of_mem c hh))
    rw [stripCommentsAux_false_cons]
    by_cases hl : isLineTermJS c = true
    · rw [if_pos hl, hcs]
    · rw [if_neg hl, if_neg hc, hcs]

/-!  Blank-line removal reaches a fixed point: its output has no
remaining `/^\s*[\r\n]/m` match, and trimming cannot create one. -/

theorem hasBlank_cons (b : Bool) (c : Char) (cs : List Char) :
    hasBlank b (c :: cs) =
      ((b && (matchBlank (c :: cs)).isSome) ||
        hasBlank (isLineTermJS c) cs) := by
  cases b <;> rfl

theorem matchBlank_none_of_not_space {c : Char} (cs : List Char)
    (hsp : isSpaceJS c = false) : matchBlank (c :: cs) = none := by
  rw [matchBlank_cons, if_neg (by simp [hsp])]

theorem matchBlank_none_parts {c : Char} {cs : List Char}
    (hsp : isSpaceJS c = true) (h : matchBlank (c :: cs) = none) :
    matchBlank cs = none ∧ (c = '\r' || c = '\n') = false := by
  rw [matchBlank_cons, if_pos hsp] at h
  cases hmb : matchBlank cs with
  | some r => rw [hmb] at h; exact absurd h (by simp)
  | none =>
    rw [hmb] at h
    rw [show (match (none : Option (List Char)) with
      | some rest => some rest
      | none => if c = '\r' || c = '\n' then some cs else none) =
      (if c = '\r' || c = '\n' then some cs else none) from rfl] at h
    refine ⟨rfl, ?_⟩
    by_cases hrn : (c = '\r' || c = '\n') = true
    · rw [if_pos hrn] at h; exact absurd h (by simp)
    · exact Bool.eq_false_iff.mpr hrn

theorem matchBlank_none_build {c : Char} {cs : List Char}
    (hsp : isSpaceJS c = true) (h1 : matchBlank cs = none)
    (h2 : (c = '\r' || c = '\n') = false) : matchBlank (c :: cs) = none := by
  rw [matchBlank_cons, if_pos hsp, h1]
  rw [show (match (none : Option (List Char)) with
    | some rest => some rest
    | none => if c = '\r' || c = '\n' then some cs else none) =
    (if c = '\r' || c = '\n' then some cs else none) from rfl]
  rw [if_neg (by simp [h2])]

/-- Blank-line removal never creates a match of `\s*[\r\n]` at the
start of its output when its input had none there. -/
theorem matchBlank_none_stripBlank :
    ∀ (l : List Char) (b : Bool), matchBlank l = none →
      matchBlank (stripBlankAux 0 b l) = none := by
  intro l
  induction l with
  | nil => intro b _; rw [stripBlankAux_nil]; rfl
  | cons c cs ih =>
    intro b h
    have hout : stripBlankAux 0 b (c :: cs) =
        c :: stripBlankAux 0 (isLineTermJS c) cs := by
      cases b with
      | false => exact stripBlankAux_zero_false c cs
      | true => exact stripBlankAux_nomatch h
    rw [hout]
    by_cases hsp : isSpaceJS c = true
    · rcases matchBlank_none_parts hsp h with ⟨h1, h2⟩
      exact matchBlank_none_build hsp (ih _ h1) h2
    · exact matchBlank_none_of_not_space _ (Bool.eq_false_iff.mpr hsp)

theorem suffix_length_le {r l : List Char} (h : r <:+ l) :
    r.length ≤ l.length := by
  obtain ⟨t, rfl⟩ := h
  simp

/-- After `stripBlank`, no position of the output matches the
blank-line regex. -/
theorem hasBlank_stripBlank :
    ∀ (n : Nat) (l : List Char), l.length ≤ n → ∀ b : Bool,
      hasBlank b (stripBlankAux 0 b l) = false := by
  intro n
  induction n with
  | zero =>
    intro l hl b
    rw [List.length_eq_zero.mp (Nat.le_zero.mp hl), stripBlankAux_nil]
    rfl
  | succ n ih =>
    intro l hl b
    cases l with
    | nil => rw [stripBlankAux_nil]; rfl
    | cons c cs =>
      have hcs : cs.length ≤ n := by
        simpa using Nat.lt_succ_iff.mp (Nat.lt_of_lt_of_le
          (by simp [Nat.lt_succ_iff]) hl)
      cases b with
      | false =>
        rw [stripBlankAux_zero_false, hasBlank_cons]
        simpa using ih cs hcs (isLineTermJS c)
      | true =>
        cases hmb : matchBlank (c :: cs) with
        | none =>
          rw [stripBlankAux_nomatch hmb, hasBlank_cons]
          have hm2 : matchBlank
              (c :: stripBlankAux 0 (isLineTermJS c) cs) = none := by
            have := matchBlank_none_stripBlank (c :: cs) false hmb
            rwa [stripBlankAux_zero_false] at this
          rw [hm2]
          simpa using ih cs hcs (isLineTermJS c)
        | some rest =>
          rw [stripBlankAux_match hmb]
          exact ih rest
            ((suffix_length_le (matchBlank_suffix cs c rest hmb)).trans hcs)
            true

/-- A text with no blank-line match anywhere is a fixed point of
`stripBlank`. -/
theorem stripBlank_id_of_no_blank :
    ∀ (l : List Char) (b : Bool), hasBlank b l = false →
      stripBlankAux 0 b l = l := by
  intro l
  induction l with
  | nil => intro b _; exact stripBlankAux_nil 0 b
  | cons c cs ih =>
    intro b h
    rw [hasBlank_cons] at h
    rcases Bool.or_eq_false_iff.mp h with ⟨h1, h2⟩
    cases b with
    | false => rw [stripBlankAux_zero_false, ih _ h2]
    | true =>
      have hmb : matchBlank (c :: cs) = none := by
        simp only [Bool.true_and] at h1
        exact Option.not_isSome_iff_eq_none.mp (by simp [h1])
      rw [stripBlankAux_nomatch hmb, ih _ h2]

/-- The `^`-state after scanning a list of characters. -/
def lineStartState (b : Bool) : List Char → Bool
  | [] => b
  | c :: cs => lineStartState (isLineTermJS c) cs

theorem hasBlank_append :
    ∀ (u : List Char) (b : Bool) (v : List Char),
      hasBlank b (u ++ v) = false →
      hasBlank (lineStartState b u) v = false := by
  intro u
  induction u with
  | nil => intro b v h; exact h
  | cons c cs ih =>
    intro b v h
    rw [List.cons_append, hasBlank_cons] at h
    exact ih (isLineTermJS c) v (Bool.or_eq_false_iff.mp h).2

theorem matchBlank_append_none :
    ∀ (s t : List Char), matchBlank (s ++ t) = none → matchBlank s = none := by
  intro s
  induction s with
  | nil => intro t _; rfl
  | cons c cs ih =>
    intro t h
    rw [List.cons_append] at h
    by_cases hsp : isSpaceJS c = true
    · rcases matchBlank_none_parts hsp h with ⟨h1, h2⟩
      exact matchBlank_none_build hsp (ih t h1) h2
    · exact matchBlank_none_of_not_space _ (Bool.eq_false_iff.mpr hsp)

/-- Removing a suffix never creates a blank-line match. -/
theorem hasBlank_append_left :
    ∀ (y : List Char) (b : Bool) (t : List Char),
      hasBlank b (y ++ t) = false → hasBlank b y = false := by
  intro y
  induction y with
  | nil => intro b t _; rfl
  | cons c cs ih =>
    intro b t h
    rw [List.cons_append, hasBlank_cons] at h
    rcases Bool.or_eq_false_iff.mp h with ⟨h1, h2⟩
    rw [hasBlank_cons]
    refine Bool.or_eq_false_iff.mpr ⟨?_, ih _ t h2⟩
    cases b with
    | false => rfl
    | true =>
      simp only [Bool.true_and] at h1 ⊢
      rw [matchBlank_append_none (c :: cs) t
        (Option.not_isSome_iff_eq_none.mp (by simp [h1]))]
      rfl

/-!  Trimming machinery: decomposition and idempotence. -/

theorem dropWhile_head_false (p : Char → Bool) :
    ∀ (l : List Char) (c : Char) (t : List Char),
      l.dropWhile p = c :: t → p c = false := by
  intro l
  induction l with
  | nil => intro c t h; exact absurd h (by simp)
  | cons d ds ih =>
    intro c t h
    rw [List.dropWhile_cons] at h
    split at h
    · exact ih c t h
    · rename_i hd
      injection h with h1 h2
      rw [← h1]
      exact Bool.eq_false_iff.mpr hd

theorem trimRight_decomp (l : List Char) :
    ∃ t, l = trimRight l ++ t := by
  refine ⟨(l.reverse.takeWhile isSpaceJS).reverse, ?_⟩
  calc l = l.reverse.reverse := (List.reverse_reverse l).symm
    _ = (List.takeWhile isSpaceJS l.reverse ++
          List.dropWhile isSpaceJS l.reverse).reverse := by
        rw [List.takeWhile_append_dropWhile]
    _ = (List.dropWhile isSpaceJS l.reverse).reverse ++
          (List.takeWhile isSpaceJS l.reverse).reverse :=
        List.reverse_append _ _
    _ = trimRight l ++ (l.reverse.takeWhile isSpaceJS).reverse := rfl

theorem dropWhile_idem (p : Char → Bool) (l : List Char) :
    (l.dropWhile p).dropWhile p = l.dropWhile p := by
  cases hdw : l.dropWhile p with
  | nil => rfl
  | cons c t =>
    rw [List.dropWhile_cons,
      if_neg (by simp [dropWhile_head_false p l c t hdw])]

theorem trimLeft_idem (l : List Char) : trimLeft (trimLeft l) = trimLeft l :=
  dropWhile_idem isSpaceJS l

theorem trimRight_idem (l : List Char) :
    trimRight (trimRight l) = trimRight l := by
  unfold trimRight
  rw [List.reverse_reverse, dropWhile_idem]

theorem trimLeft_trimRight (v : List Char)
    (hv : v = [] ∨ ∃ c t, v = c :: t ∧ isSpaceJS c = false) :
    trimLeft (trimRight v) = trimRight v := by
  rcases hv with rfl | ⟨c, t, rfl, hc⟩
  · rfl
  · obtain ⟨t2, hdec⟩ := trimRight_decomp (c :: t)
    cases htrv : trimRight (c :: t) with
    | nil => rfl
    | cons d y =>
      rw [htrv, List.cons_append] at hdec
      have hd : d = c := (List.cons.injEq .. ▸ hdec).1.symm
      unfold trimLeft
      rw [List.dropWhile_cons, if_neg (by simp [hd, hc])]

theorem trimJS_idem (l : List Char) : trimJS (trimJS l) = trimJS l := by
  show trimRight (trimLeft (trimRight (trimLeft l))) = trimRight (trimLeft l)
  have hv : trimLeft l = [] ∨
      ∃ c t, trimLeft l = c :: t ∧ isSpaceJS c = false := by
    cases htl : trimLeft l with
    | nil => exact Or.inl rfl
    | cons c t => exact Or.inr ⟨c, t, rfl, dropWhile_head_false _ l c t htl⟩
  rw [trimLeft_trimRight (trimLeft l) hv, trimRight_idem]

/-- Trimming preserves the absence of blank-line matches. -/
theorem hasBlank_trimJS (l : List Char) (h : hasBlank true l = false) :
    hasBlank true (trimJS l) = false := by
  have hdec : l = l.takeWhile isSpaceJS ++ trimLeft l :=
    (List.takeWhile_append_dropWhile _ _).symm
  have h1 : hasBlank (lineStartState true (l.takeWhile isSpaceJS))
      (trimLeft l) = false :=
    hasBlank_append _ true (trimLeft l) (by rw [← hdec]; exact h)
  cases htl : trimLeft l with
  | nil =>
    show hasBlank true (trimRight (trimLeft l)) = false
    rw [htl]
    rfl
  | cons c t =>
    have hc : isSpaceJS c = false := dropWhile_head_false _ l c t htl
    have hmbn : matchBlank (c :: t) = none := matchBlank_none_of_not_space t hc
    rw [htl, hasBlank_cons, hmbn] at h1
    have h2 : hasBlank true (c :: t) = false := by
      rw [hasBlank_cons, hmbn]
      simpa using (Bool.or_eq_false_iff.mp h1).2
    obtain ⟨t2, hdec2⟩ := trimRight_decomp (c :: t)
    have h3 : hasBlank true (trimRight (c :: t)) = false :=
      hasBlank_append_left _ true t2 (by rw [← hdec2]; exact h2)
    show hasBlank true (trimRight (trimLeft l)) = false
    rw [htl]
    exact h3

/-- C6, amended: `cleanExpression` is idempotent on every input whose
cleaned result contains no remaining removable command pattern (the
second comment pass is vacuous because the first removed every `%`,
and blank-line removal and trimming are at a fixed point); in general
a second application can only re-fire the command-removal step. -/
theorem clean_idempotent_of_no_cmd (x : List Char)
    (h : stripCommands (cleanLatexSyntax x) = cleanLatexSyntax x) :
    cleanLatexSyntax (cleanLatexSyntax x) = cleanLatexSyntax x := by
  have h1 : stripComments (cleanLatexSyntax x) = cleanLatexSyntax x :=
    stripComments_id_of_no_percent _ (percent_not_mem_clean x)
  show trimJS (stripBlank (stripCommands (stripComments
    (cleanLatexSyntax x)))) = cleanLatexSyntax x
  rw [h1, h]
  have hz : hasBlank true
      (stripBlank (stripCommands (stripComments x))) = false :=
    hasBlank_stripBlank (stripCommands (stripComments x)).length _
      (Nat.le_refl _) true
  have hnb : hasBlank true (cleanLatexSyntax x) = false :=
    hasBlank_trimJS _ hz
  have hfix : stripBlank (cleanLatexSyntax x) = cleanLatexSyntax x :=
    stripBlank_id_of_no_blank _ true hnb
  rw [hfix]
  exact trimJS_idem _

/-- C6 counterexample: command removal can splice a new removable
command out of its own deletion — `"\la\tag{x}bel{y}"` cleans to
`"\label{y}"`, which a second application cleans to `""` — so
`cleanExpression` is not idempotent on all inputs. -/
theorem clean_not_idempotent_ce :
    cleanLatexSyntax "\\la\\tag\x7bx\x7dbel\x7by\x7d".data =
      "\\label\x7by\x7d".data ∧
    cleanLatexSyntax (cleanLatexSyntax "\\la\\tag\x7bx\x7dbel\x7by\x7d".data) =
      [] ∧
    cleanLatexSyntax (cleanLatexSyntax "\\la\\tag\x7bx\x7dbel\x7by\x7d".data) ≠
      cleanLatexSyntax "\\la\\tag\x7bx\x7dbel\x7by\x7d".data := by
  refine ⟨by decide, by decide, by decide⟩

/-- C6 witness: on `"\label{eq:1}x=y"` the cleaned result `"x=y"` has
no removable pattern left, and a second cleaning changes nothing. -/
theorem clean_idempotent_of_no_cmd_witness :
    stripCommands (cleanLatexSyntax "\\label\x7beq:1\x7dx=y".data) =
      cleanLatexSyntax "\\label\x7beq:1\x7dx=y".data ∧
    cleanLatexSyntax (cleanLatexSyntax "\\label\x7beq:1\x7dx=y".data) =
      cleanLatexSyntax "\\label\x7beq:1\x7dx=y".data :=
  ⟨by decide, clean_idempotent_of_no_cmd "\\label\x7beq:1\x7dx=y".data
    (by decide)⟩

/-!  Length bounds: every cleanup step only deletes characters. -/

theorem stripCommentsAux_length : ∀ (l : List Char) (b : Bool),
    (stripCommentsAux b l).length ≤ l.length := by
  intro l
  induction l with
  | nil => intro b; cases b <;> exact Nat.le_refl 0
  | cons c cs ih =>
    intro b
    cases b with
    | true =>
      rw [show stripCommentsAux true (c :: cs) =
        (if isLineTermJS c then c :: stripCommentsAux false cs
        else stripCommentsAux true cs) from by
          by_cases hl : isLineTermJS c <;> simp [stripCommentsAux, hl]]
      split
      · simpa using ih false
      · exact (ih true).trans (Nat.le_succ _)
    | false =>
      rw [show stripCommentsAux false (c :: cs) =
        (if isLineTermJS c then c :: stripCommentsAux false cs
        else if c = '%' then stripCommentsAux true cs
        else c :: stripCommentsAux false cs) from by
          by_cases hl : isLineTermJS c <;> simp [stripCommentsAux, hl]]
      split
      · simpa using ih false
      · split
        · exact (ih true).trans (Nat.le_succ _)
        · simpa using ih false

theorem stripCmdAux_length : ∀ (l : List Char) (n : Nat),
    (stripCmdAux n l).length ≤ l.length := by
  intro l
  induction l with
  | nil =>
    intro n
    cases n <;> exact Nat.le_refl 0
  | cons c cs ih =>
    intro n
    cases n with
    | succ k =>
      exact (ih k).trans (Nat.le_succ _)
    | zero =>
      rw [stripCmdAux_zero_cons]
      split
      · cases htc : tryCommand cs with
        | some rest =>
          show (stripCmdAux (cs.length - rest.length) cs).length ≤
            (c :: cs).length
          exact (ih _).trans (Nat.le_succ _)
        | none =>
          show (c :: stripCmdAux 0 cs).length ≤ (c :: cs).length
          simpa using ih 0
      · simpa using ih 0

theorem stripBlankAux_length : ∀ (l : List Char) (n : Nat) (b : Bool),
    (stripBlankAux n b l).length ≤ l.length := by
  intro l
  induction l with
  | nil =>
    intro n b
    cases n <;> cases b <;> exact Nat.le_refl 0
  | cons c cs ih =>
    intro n b
    cases n with
    | succ k => exact (ih k b).trans (Nat.le_succ _)
    | zero =>
      cases b with
      | false =>
        rw [stripBlankAux_zero_false]
        simpa using ih 0 (isLineTermJS c)
      | true =>
        rw [stripBlankAux_zero_true]
        cases hmb : matchBlank (c :: cs) with
        | some rest => exact (ih _ true).trans (Nat.le_succ _)
        | none => simpa using ih 0 (isLineTermJS c)

theorem dropWhile_length_le (p : Char → Bool) :
    ∀ l : List Char, (l.dropWhile p).length ≤ l.length := by
  intro l
  induction l with
  | nil => exact Nat.le_refl 0
  | cons c cs ih =>
    rw [List.dropWhile_cons]
    split
    · exact ih.trans (Nat.le_succ _)
    · exact Nat.le_refl _

theorem trimJS_length : ∀ l : List Char, (trimJS l).length ≤ l.length := by
  intro l
  have h1 : (trimLeft l).length ≤ l.length := dropWhile_length_le isSpaceJS l
  have h2 : (trimRight (trimLeft l)).length ≤ (trimLeft l).length := by
    rw [trimRight, List.length_reverse]
    exact (dropWhile_length_le isSpaceJS _).trans
      (by rw [List.length_reverse])
  exact h2.trans h1

/-- C10: `cleanLatexSyntax` never lengthens its input, and neither
does any of its four rewrite steps — each only deletes characters. -/
theorem clean_length_le (s : List Char) :
    (cleanLatexSyntax s).length ≤ s.length ∧
    (stripComments s).length ≤ s.length ∧
    (stripCommands s).length ≤ s.length ∧
    (stripBlank s).length ≤ s.length ∧
    (trimJS s).length ≤ s.length := by
  refine ⟨?_, stripCommentsAux_length s false, stripCmdAux_length s 0,
    stripBlankAux_length s 0 true, trimJS_length s⟩
  calc (cleanLatexSyntax s).length
      ≤ (stripBlank (stripCommands (stripComments s))).length :=
        trimJS_length _
    _ ≤ (stripCommands (stripComments s)).length :=
        stripBlankAux_length _ 0 true
    _ ≤ (stripComments s).length := stripCmdAux_length _ 0
    _ ≤ s.length := stripCommentsAux_length s false
